import Mathlib

/-!
Verification of the marathon beatmap merger (src/marathon/marathon.rs).

The embedding models `rosu_map::Beatmap` shallowly: times are exact
rationals (the source uses `f64`; all arithmetic here is addition,
comparison and max, which the rational model reflects exactly), and the
fields of hit objects and control points that the merger never touches
are collapsed into opaque payloads.  The merger's Rust `panic!` calls are
modelled as an `Except` error result.
-/

namespace ManiaTool

/-- Kind of a hit object.  The source matches on
`HitObjectKind::Hold(ref hold)` (which carries a `duration`) versus every
other variant, all treated as instantaneous; those other variants are
collapsed into `other` with an opaque payload. -/
inductive HitObjectKind where
  | hold (duration : ℚ)
  | other (payload : ℕ)
deriving DecidableEq, Repr

/-- A hit object: a `start_time` in milliseconds plus its kind. -/
structure HitObject where
  start_time : ℚ
  kind : HitObjectKind
deriving DecidableEq, Repr

/-- A control point (timing / effect / difficulty / sample point): a
`time` in milliseconds plus the fields the merger never touches,
collapsed into an opaque payload. -/
structure ControlPoint where
  time : ℚ
  payload : ℕ
deriving DecidableEq, Repr

/-- The four control-point sequences of `beatmap.control_points`. -/
structure ControlPoints where
  timing_points : List ControlPoint
  effect_points : List ControlPoint
  difficulty_points : List ControlPoint
  sample_points : List ControlPoint
deriving DecidableEq, Repr

/-- A beatmap: the `version` label, hit objects, control points, and the
remaining metadata the merger copies verbatim, collapsed into an opaque
payload. -/
structure Beatmap where
  version : String
  hit_objects : List HitObject
  control_points : ControlPoints
  metadata : ℕ
deriving DecidableEq, Repr

/-- The two `panic!` conditions of the source, as error values. -/
inductive MarathonError where
  | EmptyInput
  | TransitionCountMismatch
deriving DecidableEq, Repr

/-- Effective end time of a hit object: `start_time + hold.duration` for
holds, `start_time` otherwise (the `match hit_object.kind` in
`get_beatmap_duration`). -/
def effectiveEndTime (hit_object : HitObject) : ℚ :=
  match hit_object.kind with
  | .hold duration => hit_object.start_time + duration
  | .other _ => hit_object.start_time

/-- `get_beatmap_duration`: returns `0.0` for an empty beatmap, else
folds `max_time = max_time.max(end_time)` over all hit objects starting
from `max_time = 0.0`. -/
def get_beatmap_duration (beatmap : Beatmap) : ℚ :=
  if beatmap.hit_objects.isEmpty then 0
  else beatmap.hit_objects.foldl
    (fun max_time hit_object => max max_time (effectiveEndTime hit_object)) 0

/-- `hit_object.start_time += current_time_offset`. -/
def shiftHit (offset : ℚ) (hit_object : HitObject) : HitObject :=
  { hit_object with start_time := hit_object.start_time + offset }

/-- `point.time += current_time_offset`. -/
def shiftPoint (offset : ℚ) (point : ControlPoint) : ControlPoint :=
  { point with time := point.time + offset }

/-- The shared loop body of both mergers: clone every hit object and
control point of `beatmap`, add `offset` to its time field, and push it
onto the corresponding collection of `result`. -/
def appendShifted (result beatmap : Beatmap) (offset : ℚ) : Beatmap :=
  { result with
    hit_objects :=
      result.hit_objects ++ beatmap.hit_objects.map (shiftHit offset),
    control_points :=
      { timing_points := result.control_points.timing_points ++
          beatmap.control_points.timing_points.map (shiftPoint offset),
        effect_points := result.control_points.effect_points ++
          beatmap.control_points.effect_points.map (shiftPoint offset),
        difficulty_points := result.control_points.difficulty_points ++
          beatmap.control_points.difficulty_points.map (shiftPoint offset),
        sample_points := result.control_points.sample_points ++
          beatmap.control_points.sample_points.map (shiftPoint offset) } }

/-- The comparator `a.start_time.partial_cmp(&b.start_time)` as a boolean
order (no NaN exists in the rational model, so `unwrap` cannot fail). -/
def hitLE (a b : HitObject) : Bool := decide (a.start_time ≤ b.start_time)

/-- The comparator `a.time.partial_cmp(&b.time)` as a boolean order. -/
def pointLE (a b : ControlPoint) : Bool := decide (a.time ≤ b.time)

/-- The five `sort_by` calls at the end of both mergers.  Rust's
`sort_by` is a stable sort; `List.mergeSort` is the stable sort of the
Lean library. -/
def sortBeatmap (result : Beatmap) : Beatmap :=
  { result with
    hit_objects := result.hit_objects.mergeSort hitLE,
    control_points :=
      { timing_points := result.control_points.timing_points.mergeSort pointLE,
        effect_points := result.control_points.effect_points.mergeSort pointLE,
        difficulty_points :=
          result.control_points.difficulty_points.mergeSort pointLE,
        sample_points :=
          result.control_points.sample_points.mergeSort pointLE } }

/-- `result.version = format!("{} Marathon ({} maps)", result.version, beatmaps.len())`. -/
def relabel (count : ℕ) (result : Beatmap) : Beatmap :=
  { result with
    version := result.version ++ " Marathon (" ++ toString count ++ " maps)" }

/-- One iteration of the `concat_beatmaps` loop: append the shifted
elements at the current offset, then
`current_time_offset += get_beatmap_duration(beatmap) + gap_ms`. -/
def concatStep (gap : ℚ) (acc : Beatmap × ℚ) (beatmap : Beatmap) : Beatmap × ℚ :=
  (appendShifted acc.1 beatmap acc.2, acc.2 + (get_beatmap_duration beatmap + gap))

/-- `concat_beatmaps(beatmaps, gap_ms)`: panics (`EmptyInput`) on an
empty vector; returns the clone of the sole beatmap unchanged when there
is exactly one; otherwise starts from a clone of the first beatmap with
`current_time_offset = get_beatmap_duration(&result) + gap_ms`, loops
`concatStep` over the remaining beatmaps, then sorts all five
collections and rewrites the version label. -/
def concat_beatmaps (beatmaps : List Beatmap) (gap_ms : Option ℚ) :
    Except MarathonError Beatmap :=
  match beatmaps with
  | [] => .error .EmptyInput
  | first :: rest =>
    let gap := gap_ms.getD 0
    if rest.isEmpty then .ok first
    else
      let final := rest.foldl (concatStep gap)
        (first, get_beatmap_duration first + gap)
      .ok (relabel (first :: rest).length (sortBeatmap final.1))

/-- One iteration of the `concat_beatmaps_with_transitions` loop: first
`current_time_offset += transitions[i-1]`, then append the shifted
elements, then `current_time_offset += get_beatmap_duration(beatmap)`. -/
def transStep (acc : Beatmap × ℚ) (entry : Beatmap × ℚ) : Beatmap × ℚ :=
  let offset := acc.2 + entry.2
  (appendShifted acc.1 entry.1 offset, offset + get_beatmap_duration entry.1)

/-- `concat_beatmaps_with_transitions(beatmaps, transitions)`: panics
(`EmptyInput`) on an empty vector; defaults `transitions` to
`vec![0.0; beatmaps.len() - 1]`; panics (`TransitionCountMismatch`) when
the length differs from `beatmaps.len() - 1`; returns the clone of the
sole beatmap when there is exactly one; otherwise starts with
`current_time_offset = get_beatmap_duration(&result)` and loops
`transStep` pairing each remaining beatmap with its transition, then
sorts and relabels exactly as `concat_beatmaps`. -/
def concat_beatmaps_with_transitions (beatmaps : List Beatmap)
    (transitions : Option (List ℚ)) : Except MarathonError Beatmap :=
  match beatmaps with
  | [] => .error .EmptyInput
  | first :: rest =>
    let ts := transitions.getD (List.replicate ((first :: rest).length - 1) 0)
    if ts.length ≠ (first :: rest).length - 1 then .error .TransitionCountMismatch
    else if rest.isEmpty then .ok first
    else
      let final := (rest.zip ts).foldl transStep
        (first, get_beatmap_duration first)
      .ok (relabel (first :: rest).length (sortBeatmap final.1))

/-! ### Projections, offset sequences and flattened shifted collections -/

/-- The hit-object collection of a beatmap. -/
def hitsOf (b : Beatmap) : List HitObject := b.hit_objects

/-- The timing-point collection of a beatmap. -/
def timingOf (b : Beatmap) : List ControlPoint := b.control_points.timing_points

/-- The effect-point collection of a beatmap. -/
def effectOf (b : Beatmap) : List ControlPoint := b.control_points.effect_points

/-- The difficulty-point collection of a beatmap. -/
def diffOf (b : Beatmap) : List ControlPoint := b.control_points.difficulty_points

/-- The sample-point collection of a beatmap. -/
def sampleOf (b : Beatmap) : List ControlPoint := b.control_points.sample_points

/-- The successive values of `current_time_offset` seen by the loop of
`concat_beatmaps` when it starts at `off`: each beatmap is shifted by the
current offset, and the offset then advances by
`get_beatmap_duration beatmap + gap`. -/
def uniformOffsets (gap off : ℚ) : List Beatmap → List ℚ
  | [] => []
  | beatmap :: rest =>
    off :: uniformOffsets gap (off + (get_beatmap_duration beatmap + gap)) rest

/-- The successive shift offsets seen by the loop of
`concat_beatmaps_with_transitions`: for each (beatmap, transition) pair
the offset first advances by the transition, the beatmap is shifted by
the advanced offset, and the offset then advances by the beatmap's
duration. -/
def transOffsets (off : ℚ) : List (Beatmap × ℚ) → List ℚ
  | [] => []
  | entry :: rest =>
    (off + entry.2) :: transOffsets ((off + entry.2) + get_beatmap_duration entry.1) rest

/-- The concatenation, over charts `bs` paired with offsets `offs`, of
each chart's `proj` collection with `shiftFn offset` applied to every
element. -/
def flatShifted {α : Type} (proj : Beatmap → List α) (shiftFn : ℚ → α → α)
    (bs : List Beatmap) (offs : List ℚ) : List α :=
  (bs.zip offs).flatMap fun p => (proj p.1).map (shiftFn p.2)

/-! ### Small rewriting lemmas -/

@[simp] lemma appendShifted_hits (r b : Beatmap) (off : ℚ) :
    hitsOf (appendShifted r b off) = hitsOf r ++ (hitsOf b).map (shiftHit off) := rfl

@[simp] lemma appendShifted_timing (r b : Beatmap) (off : ℚ) :
    timingOf (appendShifted r b off) = timingOf r ++ (timingOf b).map (shiftPoint off) := rfl

@[simp] lemma appendShifted_effect (r b : Beatmap) (off : ℚ) :
    effectOf (appendShifted r b off) = effectOf r ++ (effectOf b).map (shiftPoint off) := rfl

@[simp] lemma appendShifted_diff (r b : Beatmap) (off : ℚ) :
    diffOf (appendShifted r b off) = diffOf r ++ (diffOf b).map (shiftPoint off) := rfl

@[simp] lemma appendShifted_sample (r b : Beatmap) (off : ℚ) :
    sampleOf (appendShifted r b off) = sampleOf r ++ (sampleOf b).map (shiftPoint off) := rfl

@[simp] lemma sortBeatmap_hits (b : Beatmap) :
    hitsOf (sortBeatmap b) = (hitsOf b).mergeSort hitLE := rfl

@[simp] lemma sortBeatmap_timing (b : Beatmap) :
    timingOf (sortBeatmap b) = (timingOf b).mergeSort pointLE := rfl

@[simp] lemma sortBeatmap_effect (b : Beatmap) :
    effectOf (sortBeatmap b) = (effectOf b).mergeSort pointLE := rfl

@[simp] lemma sortBeatmap_diff (b : Beatmap) :
    diffOf (sortBeatmap b) = (diffOf b).mergeSort pointLE := rfl

@[simp] lemma sortBeatmap_sample (b : Beatmap) :
    sampleOf (sortBeatmap b) = (sampleOf b).mergeSort pointLE := rfl

@[simp] lemma relabel_hits (n : ℕ) (b : Beatmap) : hitsOf (relabel n b) = hitsOf b := rfl

@[simp] lemma relabel_timing (n : ℕ) (b : Beatmap) : timingOf (relabel n b) = timingOf b := rfl

@[simp] lemma relabel_effect (n : ℕ) (b : Beatmap) : effectOf (relabel n b) = effectOf b := rfl

@[simp] lemma relabel_diff (n : ℕ) (b : Beatmap) : diffOf (relabel n b) = diffOf b := rfl

@[simp] lemma relabel_sample (n : ℕ) (b : Beatmap) : sampleOf (relabel n b) = sampleOf b := rfl

@[simp] lemma shiftHit_zero (hit_object : HitObject) : shiftHit 0 hit_object = hit_object := by
  simp [shiftHit]

@[simp] lemma shiftPoint_zero (point : ControlPoint) : shiftPoint 0 point = point := by
  simp [shiftPoint]

@[simp] lemma shiftHit_kind (offset : ℚ) (hit_object : HitObject) :
    (shiftHit offset hit_object).kind = hit_object.kind := rfl

@[simp] lemma shiftPoint_payload (offset : ℚ) (point : ControlPoint) :
    (shiftPoint offset point).payload = point.payload := rfl

@[simp] lemma flatShifted_nil {α : Type} (proj : Beatmap → List α)
    (shiftFn : ℚ → α → α) (offs : List ℚ) :
    flatShifted proj shiftFn [] offs = [] := rfl

@[simp] lemma flatShifted_cons {α : Type} (proj : Beatmap → List α)
    (shiftFn : ℚ → α → α) (b : Beatmap) (bs : List Beatmap)
    (off : ℚ) (offs : List ℚ) :
    flatShifted proj shiftFn (b :: bs) (off :: offs)
      = (proj b).map (shiftFn off) ++ flatShifted proj shiftFn bs offs := by
  simp [flatShifted]

lemma flatShifted_cons_zero {α : Type} (proj : Beatmap → List α)
    (shiftFn : ℚ → α → α) (hzero : ∀ a, shiftFn 0 a = a)
    (b : Beatmap) (bs : List Beatmap) (offs : List ℚ) :
    flatShifted proj shiftFn (b :: bs) (0 :: offs)
      = proj b ++ flatShifted proj shiftFn bs offs := by
  rw [flatShifted_cons, List.map_id'' hzero]

lemma uniformOffsets_length (gap : ℚ) :
    ∀ (bs : List Beatmap) (off : ℚ), (uniformOffsets gap off bs).length = bs.length
  | [], _ => rfl
  | _ :: bs, off => by simp [uniformOffsets, uniformOffsets_length gap bs]

lemma transOffsets_length :
    ∀ (entries : List (Beatmap × ℚ)) (off : ℚ),
      (transOffsets off entries).length = entries.length
  | [], _ => rfl
  | _ :: entries, off => by simp [transOffsets, transOffsets_length entries]

lemma flatShifted_length {α : Type} (proj : Beatmap → List α) (shiftFn : ℚ → α → α) :
    ∀ (bs : List Beatmap) (offs : List ℚ), offs.length = bs.length →
      (flatShifted proj shiftFn bs offs).length = (bs.map fun b => (proj b).length).sum
  | [], _, _ => by simp
  | b :: bs, [], h => by simp at h
  | b :: bs, off :: offs, h => by
    simp only [List.length_cons, Nat.succ.injEq] at h
    simp [flatShifted_cons, flatShifted_length proj shiftFn bs offs h]

/-! ### Characterizing the two merge loops -/

lemma foldl_concatStep_proj {α : Type} (proj : Beatmap → List α) (shiftFn : ℚ → α → α)
    (hproj : ∀ r b off, proj (appendShifted r b off) = proj r ++ (proj b).map (shiftFn off))
    (gap : ℚ) :
    ∀ (rest : List Beatmap) (r : Beatmap) (off : ℚ),
      proj ((rest.foldl (concatStep gap) (r, off)).1)
        = proj r ++ flatShifted proj shiftFn rest (uniformOffsets gap off rest)
  | [], r, off => by simp
  | b :: rest, r, off => by
    simp only [List.foldl_cons, concatStep, uniformOffsets]
    rw [foldl_concatStep_proj proj shiftFn hproj gap rest _ _, hproj,
      flatShifted_cons, List.append_assoc]

lemma foldl_transStep_proj {α : Type} (proj : Beatmap → List α) (shiftFn : ℚ → α → α)
    (hproj : ∀ r b off, proj (appendShifted r b off) = proj r ++ (proj b).map (shiftFn off)) :
    ∀ (entries : List (Beatmap × ℚ)) (r : Beatmap) (off : ℚ),
      proj ((entries.foldl transStep (r, off)).1)
        = proj r ++ flatShifted proj shiftFn (entries.map Prod.fst) (transOffsets off entries)
  | [], r, off => by simp
  | e :: entries, r, off => by
    simp only [List.foldl_cons, transStep, transOffsets, List.map_cons]
    rw [foldl_transStep_proj proj shiftFn hproj entries _ _, hproj,
      flatShifted_cons, List.append_assoc]

/-- Unfolding `concat_beatmaps` on a non-empty input. -/
lemma concat_uniform_eq (first : Beatmap) (rest : List Beatmap) (gap_ms : Option ℚ) :
    concat_beatmaps (first :: rest) gap_ms =
      if rest.isEmpty then .ok first
      else .ok (relabel (first :: rest).length (sortBeatmap
        ((rest.foldl (concatStep (gap_ms.getD 0))
          (first, get_beatmap_duration first + gap_ms.getD 0)).1))) := rfl

/-- Unfolding `concat_beatmaps_with_transitions` on a non-empty input. -/
lemma concat_trans_eq (first : Beatmap) (rest : List Beatmap)
    (transitions : Option (List ℚ)) :
    concat_beatmaps_with_transitions (first :: rest) transitions =
      if (transitions.getD (List.replicate rest.length 0)).length ≠ rest.length
      then .error .TransitionCountMismatch
      else if rest.isEmpty then .ok first
      else .ok (relabel (first :: rest).length (sortBeatmap
        ((rest.zip (transitions.getD (List.replicate rest.length 0))).foldl transStep
          (first, get_beatmap_duration first)).1)) := by
  simp only [concat_beatmaps_with_transitions, List.length_cons, Nat.add_sub_cancel]

/-- On a multi-chart input, each collection of the uniform-gap result is
the stable sort of the flattened shifted collections, with the first
chart shifted by `0` and the rest by the running offsets. -/
lemma concat_uniform_coll {α : Type} (proj : Beatmap → List α) (shiftFn : ℚ → α → α)
    (leB : α → α → Bool)
    (hproj : ∀ r b off, proj (appendShifted r b off) = proj r ++ (proj b).map (shiftFn off))
    (hsort : ∀ b, proj (sortBeatmap b) = (proj b).mergeSort leB)
    (hrel : ∀ n b, proj (relabel n b) = proj b)
    (hzero : ∀ a, shiftFn 0 a = a)
    (first b2 : Beatmap) (rest : List Beatmap) (gap_ms : Option ℚ) (r : Beatmap)
    (h : concat_beatmaps (first :: b2 :: rest) gap_ms = .ok r) :
    proj r = (flatShifted proj shiftFn (first :: b2 :: rest)
      (0 :: uniformOffsets (gap_ms.getD 0)
        (get_beatmap_duration first + gap_ms.getD 0) (b2 :: rest))).mergeSort leB := by
  rw [concat_uniform_eq] at h
  simp only [List.isEmpty_cons, Bool.false_eq_true, if_false, Except.ok.injEq] at h
  subst h
  rw [hrel, hsort, foldl_concatStep_proj proj shiftFn hproj,
    flatShifted_cons_zero proj shiftFn hzero]

/-- On a multi-chart input, each collection of the custom-transition
result is the stable sort of the flattened shifted collections, with the
first chart shifted by `0` and the rest by the transition offsets; the
supplied transition list necessarily has matching length. -/
lemma concat_trans_coll {α : Type} (proj : Beatmap → List α) (shiftFn : ℚ → α → α)
    (leB : α → α → Bool)
    (hproj : ∀ r b off, proj (appendShifted r b off) = proj r ++ (proj b).map (shiftFn off))
    (hsort : ∀ b, proj (sortBeatmap b) = (proj b).mergeSort leB)
    (hrel : ∀ n b, proj (relabel n b) = proj b)
    (hzero : ∀ a, shiftFn 0 a = a)
    (first b2 : Beatmap) (rest : List Beatmap) (transitions : Option (List ℚ)) (r : Beatmap)
    (h : concat_beatmaps_with_transitions (first :: b2 :: rest) transitions = .ok r) :
    proj r = (flatShifted proj shiftFn (first :: b2 :: rest)
      (0 :: transOffsets (get_beatmap_duration first)
        ((b2 :: rest).zip
          (transitions.getD (List.replicate (b2 :: rest).length 0))))).mergeSort leB := by
  rw [concat_trans_eq] at h
  by_cases hlen : (transitions.getD (List.replicate (b2 :: rest).length 0)).length
      = (b2 :: rest).length
  · rw [if_neg (by simpa using hlen)] at h
    simp only [List.isEmpty_cons, Bool.false_eq_true, if_false, Except.ok.injEq] at h
    subst h
    rw [hrel, hsort, foldl_transStep_proj proj shiftFn hproj]
    rw [List.map_fst_zip _ _ (le_of_eq hlen.symm),
      flatShifted_cons_zero proj shiftFn hzero]
  · rw [if_pos (by simpa using hlen)] at h
    exact absurd h (by simp)

/-- The length of a supplied transition list matches on success. -/
lemma concat_trans_len (first : Beatmap) (rest : List Beatmap)
    (transitions : Option (List ℚ)) (r : Beatmap)
    (h : concat_beatmaps_with_transitions (first :: rest) transitions = .ok r) :
    (transitions.getD (List.replicate rest.length 0)).length = rest.length := by
  rw [concat_trans_eq] at h
  by_cases hlen : (transitions.getD (List.replicate rest.length 0)).length = rest.length
  · exact hlen
  · rw [if_pos (by simpa using hlen)] at h
    exact absurd h (by simp)

/-! ### The boolean comparators -/

lemma hitLE_trans : ∀ a b c : HitObject, hitLE a b → hitLE b c → hitLE a c := by
  intro a b c hab hbc
  simp only [hitLE, decide_eq_true_eq] at *
  exact le_trans hab hbc

lemma hitLE_total : ∀ a b : HitObject, hitLE a b || hitLE b a := by
  intro a b
  simp only [hitLE, Bool.or_eq_true, decide_eq_true_eq]
  exact le_total _ _

lemma pointLE_trans : ∀ a b c : ControlPoint, pointLE a b → pointLE b c → pointLE a c := by
  intro a b c hab hbc
  simp only [pointLE, decide_eq_true_eq] at *
  exact le_trans hab hbc

lemma pointLE_total : ∀ a b : ControlPoint, pointLE a b || pointLE b a := by
  intro a b
  simp only [pointLE, Bool.or_eq_true, decide_eq_true_eq]
  exact le_total _ _

@[simp] lemma map_shiftHit_zero (l : List HitObject) : l.map (shiftHit 0) = l :=
  List.map_id'' shiftHit_zero l

@[simp] lemma map_shiftPoint_zero (l : List ControlPoint) : l.map (shiftPoint 0) = l :=
  List.map_id'' shiftPoint_zero l

/-! ### Claim-level predicates -/

/-- Each of the five timed collections of `r` is a permutation of the
concatenation of the corresponding collections of the charts `bs`, the
chart paired with offset `o` contributing all its elements shifted by
exactly `o` (time field changed by `o`, everything else untouched). -/
def PermAll (r : Beatmap) (bs : List Beatmap) (offs : List ℚ) : Prop :=
  (hitsOf r).Perm (flatShifted hitsOf shiftHit bs offs) ∧
  (timingOf r).Perm (flatShifted timingOf shiftPoint bs offs) ∧
  (effectOf r).Perm (flatShifted effectOf shiftPoint bs offs) ∧
  (diffOf r).Perm (flatShifted diffOf shiftPoint bs offs) ∧
  (sampleOf r).Perm (flatShifted sampleOf shiftPoint bs offs)

/-- Each of the five timed collections of `r` has as many elements as
the corresponding collections of the charts `bs` combined. -/
def CountsAll (r : Beatmap) (bs : List Beatmap) : Prop :=
  (hitsOf r).length = (bs.map fun b => (hitsOf b).length).sum ∧
  (timingOf r).length = (bs.map fun b => (timingOf b).length).sum ∧
  (effectOf r).length = (bs.map fun b => (effectOf b).length).sum ∧
  (diffOf r).length = (bs.map fun b => (diffOf b).length).sum ∧
  (sampleOf r).length = (bs.map fun b => (sampleOf b).length).sum

/-- Each of the five timed collections of `r` is sorted by non-decreasing
time. -/
def SortedAll (r : Beatmap) : Prop :=
  (hitsOf r).Pairwise (fun a b => a.start_time ≤ b.start_time) ∧
  (timingOf r).Pairwise (fun a b => a.time ≤ b.time) ∧
  (effectOf r).Pairwise (fun a b => a.time ≤ b.time) ∧
  (diffOf r).Pairwise (fun a b => a.time ≤ b.time) ∧
  (sampleOf r).Pairwise (fun a b => a.time ≤ b.time)

/-- Any two elements that appear in order in the flattened shifted
concatenation (earlier chart first, same-chart elements in their
original order) and have equal time values still appear in that order in
the corresponding collection of `r`. -/
def StablePair {α : Type} (proj : Beatmap → List α) (shiftFn : ℚ → α → α)
    (timeOf : α → ℚ) (r : Beatmap) (bs : List Beatmap) (offs : List ℚ) : Prop :=
  ∀ a b : α, [a, b].Sublist (flatShifted proj shiftFn bs offs) →
    timeOf a = timeOf b → [a, b].Sublist (proj r)

/-- `StablePair` for all five timed collections. -/
def StableAll (r : Beatmap) (bs : List Beatmap) (offs : List ℚ) : Prop :=
  StablePair hitsOf shiftHit (fun a => a.start_time) r bs offs ∧
  StablePair timingOf shiftPoint (fun a => a.time) r bs offs ∧
  StablePair effectOf shiftPoint (fun a => a.time) r bs offs ∧
  StablePair diffOf shiftPoint (fun a => a.time) r bs offs ∧
  StablePair sampleOf shiftPoint (fun a => a.time) r bs offs

/-- The shift prescribed by the spec for the `k`-th chart (0-indexed):
the sum over the preceding charts of (that chart's duration + the gap). -/
def cumulativeShifts (gap : ℚ) (bs : List Beatmap) : List ℚ :=
  (List.range bs.length).map fun k =>
    ((bs.take k).map fun b => get_beatmap_duration b + gap).sum

/-! ### Permutation characterizations of the two mergers -/

lemma concat_uniform_PermAll (first : Beatmap) (rest : List Beatmap)
    (gap_ms : Option ℚ) (r : Beatmap)
    (h : concat_beatmaps (first :: rest) gap_ms = .ok r) :
    PermAll r (first :: rest)
      (0 :: uniformOffsets (gap_ms.getD 0)
        (get_beatmap_duration first + gap_ms.getD 0) rest) := by
  cases rest with
  | nil =>
    rw [concat_uniform_eq] at h
    simp only [List.isEmpty_nil, if_true, Except.ok.injEq] at h
    subst h
    refine ⟨?_, ?_, ?_, ?_, ?_⟩ <;> simp [uniformOffsets]
  | cons b2 rest =>
    refine ⟨?_, ?_, ?_, ?_, ?_⟩
    · rw [concat_uniform_coll hitsOf shiftHit hitLE (fun _ _ _ => rfl)
        (fun _ => rfl) (fun _ _ => rfl) shiftHit_zero first b2 rest gap_ms r h]
      exact List.mergeSort_perm _ _
    · rw [concat_uniform_coll timingOf shiftPoint pointLE (fun _ _ _ => rfl)
        (fun _ => rfl) (fun _ _ => rfl) shiftPoint_zero first b2 rest gap_ms r h]
      exact List.mergeSort_perm _ _
    · rw [concat_uniform_coll effectOf shiftPoint pointLE (fun _ _ _ => rfl)
        (fun _ => rfl) (fun _ _ => rfl) shiftPoint_zero first b2 rest gap_ms r h]
      exact List.mergeSort_perm _ _
    · rw [concat_uniform_coll diffOf shiftPoint pointLE (fun _ _ _ => rfl)
        (fun _ => rfl) (fun _ _ => rfl) shiftPoint_zero first b2 rest gap_ms r h]
      exact List.mergeSort_perm _ _
    · rw [concat_uniform_coll sampleOf shiftPoint pointLE (fun _ _ _ => rfl)
        (fun _ => rfl) (fun _ _ => rfl) shiftPoint_zero first b2 rest gap_ms r h]
      exact List.mergeSort_perm _ _

lemma concat_trans_PermAll (first : Beatmap) (rest : List Beatmap)
    (transitions : Option (List ℚ)) (r : Beatmap)
    (h : concat_beatmaps_with_transitions (first :: rest) transitions = .ok r) :
    PermAll r (first :: rest)
      (0 :: transOffsets (get_beatmap_duration first)
        (rest.zip (transitions.getD (List.replicate rest.length 0)))) := by
  cases rest with
  | nil =>
    rw [concat_trans_eq] at h
    rcases Decidable.em
        ((transitions.getD (List.replicate (List.length ([] : List Beatmap)) 0)).length
          = ([] : List Beatmap).length) with hlen | hlen
    · rw [if_neg (by simpa using hlen)] at h
      simp only [List.isEmpty_nil, if_true, Except.ok.injEq] at h
      subst h
      refine ⟨?_, ?_, ?_, ?_, ?_⟩ <;> simp [transOffsets]
    · rw [if_pos (by simpa using hlen)] at h
      exact absurd h (by simp)
  | cons b2 rest =>
    refine ⟨?_, ?_, ?_, ?_, ?_⟩
    · rw [concat_trans_coll hitsOf shiftHit hitLE (fun _ _ _ => rfl)
        (fun _ => rfl) (fun _ _ => rfl) shiftHit_zero first b2 rest transitions r h]
      exact List.mergeSort_perm _ _
    · rw [concat_trans_coll timingOf shiftPoint pointLE (fun _ _ _ => rfl)
        (fun _ => rfl) (fun _ _ => rfl) shiftPoint_zero first b2 rest transitions r h]
      exact List.mergeSort_perm _ _
    · rw [concat_trans_coll effectOf shiftPoint pointLE (fun _ _ _ => rfl)
        (fun _ => rfl) (fun _ _ => rfl) shiftPoint_zero first b2 rest transitions r h]
      exact List.mergeSort_perm _ _
    · rw [concat_trans_coll diffOf shiftPoint pointLE (fun _ _ _ => rfl)
        (fun _ => rfl) (fun _ _ => rfl) shiftPoint_zero first b2 rest transitions r h]
      exact List.mergeSort_perm _ _
    · rw [concat_trans_coll sampleOf shiftPoint pointLE (fun _ _ _ => rfl)
        (fun _ => rfl) (fun _ _ => rfl) shiftPoint_zero first b2 rest transitions r h]
      exact List.mergeSort_perm _ _

/-! ### The running offsets are the prefix sums of (duration + gap) -/

lemma uniformOffsets_eq_sums (gap : ℚ) :
    ∀ (bs : List Beatmap) (off : ℚ),
      uniformOffsets gap off bs
        = (List.range bs.length).map fun k =>
            off + ((bs.take k).map fun b => get_beatmap_duration b + gap).sum
  | [], off => by simp [uniformOffsets]
  | b :: bs, off => by
    rw [uniformOffsets, uniformOffsets_eq_sums gap bs]
    rw [List.length_cons, List.range_succ_eq_map, List.map_cons, List.map_map]
    refine List.cons_eq_cons.mpr ⟨by simp, ?_⟩
    refine List.map_congr_left fun k hk => ?_
    simp [Function.comp, List.take_succ_cons, add_assoc]

lemma cumulativeShifts_cons (gap : ℚ) (first : Beatmap) (rest : List Beatmap) :
    cumulativeShifts gap (first :: rest)
      = 0 :: uniformOffsets gap (get_beatmap_duration first + gap) rest := by
  rw [cumulativeShifts, uniformOffsets_eq_sums]
  rw [List.length_cons, List.range_succ_eq_map, List.map_cons, List.map_map]
  refine List.cons_eq_cons.mpr ⟨by simp, ?_⟩
  refine List.map_congr_left fun k hk => ?_
  simp [Function.comp, List.take_succ_cons, add_assoc]

/-! ### Facts about the duration fold -/

lemma le_foldl_max : ∀ (l : List ℚ) (a : ℚ), a ≤ l.foldl max a
  | [], a => le_refl a
  | b :: l, a => le_trans (le_max_left a b) (le_foldl_max l (max a b))

lemma foldl_max_init : ∀ (l : List ℚ) (a b : ℚ),
    l.foldl max (max a b) = max a (l.foldl max b)
  | [], a, b => rfl
  | c :: l, a, b => by
    rw [List.foldl_cons, List.foldl_cons, max_assoc, foldl_max_init l a (max b c)]

/-- `get_beatmap_duration` is the fold of `max` over the effective end
times, started at `0`. -/
lemma get_beatmap_duration_eq (beatmap : Beatmap) :
    get_beatmap_duration beatmap
      = (beatmap.hit_objects.map effectiveEndTime).foldl max 0 := by
  rw [get_beatmap_duration]
  split
  · next hemp =>
    rw [List.isEmpty_iff.mp hemp]
    rfl
  · rw [List.foldl_map]

/-! ### Sortedness and stability transfer -/

lemma sorted_of_eq_mergeSort {α : Type} {l m : List α} {leB : α → α → Bool}
    {le : α → α → Prop}
    (htrans : ∀ a b c, leB a b → leB b c → leB a c)
    (htotal : ∀ a b, leB a b || leB b a)
    (himp : ∀ a b, leB a b → le a b)
    (heq : l = m.mergeSort leB) : l.Pairwise le := by
  subst heq
  exact (List.sorted_mergeSort htrans htotal m).imp fun hab => himp _ _ hab

lemma pair_sublist_of_eq_mergeSort {α : Type} {l m : List α} {leB : α → α → Bool}
    (htrans : ∀ a b c, leB a b → leB b c → leB a c)
    (htotal : ∀ a b, leB a b || leB b a)
    (heq : l = m.mergeSort leB)
    {a b : α} (hab : leB a b) (hsub : [a, b].Sublist m) : [a, b].Sublist l := by
  subst heq
  exact List.pair_sublist_mergeSort htrans htotal hab hsub

lemma hitLE_of_time_eq {a b : HitObject} (h : a.start_time = b.start_time) :
    hitLE a b := by
  simp [hitLE, h, le_refl]

lemma pointLE_of_time_eq {a b : ControlPoint} (h : a.time = b.time) :
    pointLE a b := by
  simp [pointLE, h, le_refl]

/-! ### Concrete charts used as counterexamples -/

/-- A chart whose only hit element sits at a negative time. -/
def negChart : Beatmap :=
  ⟨"N", [⟨-5, .other 0⟩], ⟨[], [], [], []⟩, 0⟩

/-- A chart whose hit elements are not sorted by time. -/
def unsortedChart : Beatmap :=
  ⟨"U", [⟨1, .other 0⟩, ⟨0, .other 0⟩], ⟨[], [], [], []⟩, 0⟩

/-! ### Claim theorems -/

/-- C4 (counterexample): a chart composed entirely of negative-time
elements does NOT yield a negative duration — `get_beatmap_duration`
starts its `max` accumulator at `0.0`, so `negChart`, whose only
element's effective end time is `-5`, gets duration `0`, not `-5`. -/
theorem C4_counterexample :
    negChart.hit_objects = [⟨-5, .other 0⟩] ∧
    effectiveEndTime ⟨-5, .other 0⟩ < 0 ∧
    get_beatmap_duration negChart = 0 ∧
    ¬ get_beatmap_duration negChart < 0 := by
  refine ⟨rfl, by decide, by decide, by decide⟩

/-- C4 (amended): the duration calculator returns `0.0` for a chart with
no hit elements, and otherwise the maximum of `0.0` and the maximum
effective end time over all hit elements (`start_time` for instantaneous
elements, `start_time + duration` for holds): the accumulator starts at
`0.0`, so the result is clamped below at `0.0`. -/
theorem C4_duration_clamped (beatmap : Beatmap) :
    (beatmap.hit_objects = [] → get_beatmap_duration beatmap = 0) ∧
    ∀ (first : HitObject) (rest : List HitObject),
      beatmap.hit_objects = first :: rest →
        get_beatmap_duration beatmap
          = max 0 ((rest.map effectiveEndTime).foldl max (effectiveEndTime first)) := by
  constructor
  · intro hnil
    rw [get_beatmap_duration_eq, hnil]
    rfl
  · intro first rest hcons
    rw [get_beatmap_duration_eq, hcons, List.map_cons, List.foldl_cons,
      show max 0 (effectiveEndTime first) = max 0 (effectiveEndTime first) from rfl,
      foldl_max_init]

/-- C4 witness: the amended statement applied to `negChart`. -/
theorem C4_witness :
    negChart.hit_objects = (⟨-5, .other 0⟩ : HitObject) :: [] ∧
    get_beatmap_duration negChart
      = max 0 ((([] : List HitObject).map effectiveEndTime).foldl max
          (effectiveEndTime ⟨-5, .other 0⟩)) :=
  ⟨rfl, (C4_duration_clamped negChart).2 ⟨-5, .other 0⟩ [] rfl⟩

/-- C6: the duration calculator always returns a non-negative value (the
`max` accumulator starts at `0.0`, so even all-negative charts yield
`0.0`). -/
theorem C6_duration_nonneg (beatmap : Beatmap) : 0 ≤ get_beatmap_duration beatmap := by
  rw [get_beatmap_duration_eq]
  exact le_foldl_max _ 0

/-- C9: with a single input chart, both mergers return the chart
unchanged in every field (the label is not rewritten), the transition
merger accepting either an absent or an empty transition sequence. -/
theorem C9_single_chart_identity (c : Beatmap) (gap_ms : Option ℚ) :
    concat_beatmaps [c] gap_ms = .ok c ∧
    concat_beatmaps_with_transitions [c] none = .ok c ∧
    concat_beatmaps_with_transitions [c] (some []) = .ok c :=
  ⟨rfl, rfl, rfl⟩

/-- C7: both mergers report `EmptyInput` exactly on the empty input
sequence: on any non-empty sequence neither ever produces `EmptyInput`. -/
theorem C7_empty_input_iff (beatmaps : List Beatmap) (gap_ms : Option ℚ)
    (transitions : Option (List ℚ)) :
    (concat_beatmaps beatmaps gap_ms = .error .EmptyInput ↔ beatmaps = []) ∧
    (concat_beatmaps_with_transitions beatmaps transitions = .error .EmptyInput
      ↔ beatmaps = []) := by
  cases beatmaps with
  | nil => exact ⟨⟨fun _ => rfl, fun _ => rfl⟩, ⟨fun _ => rfl, fun _ => rfl⟩⟩
  | cons first rest =>
    constructor
    · constructor
      · intro h
        rw [concat_uniform_eq] at h
        split at h <;> simp at h
      · intro h
        simp at h
    · constructor
      · intro h
        rw [concat_trans_eq] at h
        split at h
        · simp at h
        · split at h <;> simp at h
      · intro h
        simp at h

/-- C8: on a non-empty input, the transition merger reports
`TransitionCountMismatch` exactly when a supplied transition sequence
does not have length N−1; with no transition sequence supplied (default:
N−1 zeros) it never reports this condition. -/
theorem C8_transition_mismatch_iff (first : Beatmap) (rest : List Beatmap) (ts : List ℚ) :
    (concat_beatmaps_with_transitions (first :: rest) (some ts)
        = .error .TransitionCountMismatch
      ↔ ts.length ≠ (first :: rest).length - 1) ∧
    concat_beatmaps_with_transitions (first :: rest) none
      ≠ .error .TransitionCountMismatch := by
  constructor
  · rw [concat_trans_eq]
    simp only [Option.getD_some, List.length_cons, Nat.add_sub_cancel]
    constructor
    · intro h
      by_contra hl
      rw [if_neg (not_not_intro hl)] at h
      split at h <;> simp at h
    · intro h
      rw [if_pos h]
  · rw [concat_trans_eq]
    simp only [Option.getD_none, List.length_replicate]
    rw [if_neg (by simp)]
    split <;> simp

/-- C1: in the uniform-gap merger, every element of the `k`-th chart
(0-indexed; the first chart gets shift `0`) ends up in the result shifted
by exactly the sum over the preceding charts of (that chart's duration +
the gap), across all five timed collections. -/
theorem C1_shift_by_cumulative_sums (first : Beatmap) (rest : List Beatmap) (g : ℚ)
    (r : Beatmap) (h : concat_beatmaps (first :: rest) (some g) = .ok r) :
    PermAll r (first :: rest) (cumulativeShifts g (first :: rest)) := by
  rw [cumulativeShifts_cons]
  have hp := concat_uniform_PermAll first rest (some g) r h
  simpa using hp

lemma uniform_offs_length (gap off : ℚ) (first : Beatmap) (rest : List Beatmap) :
    (0 :: uniformOffsets gap off rest : List ℚ).length = (first :: rest).length := by
  simp [uniformOffsets_length]

lemma trans_offs_length (off : ℚ) (first : Beatmap) (rest : List Beatmap) (ts : List ℚ)
    (hts : ts.length = rest.length) :
    (0 :: transOffsets off (rest.zip ts) : List ℚ).length = (first :: rest).length := by
  simp [transOffsets_length, List.length_zip, hts]

lemma countsAll_of_permAll {r : Beatmap} {bs : List Beatmap} {offs : List ℚ}
    (hlen : offs.length = bs.length) (hp : PermAll r bs offs) : CountsAll r bs := by
  obtain ⟨h1, h2, h3, h4, h5⟩ := hp
  exact ⟨by rw [h1.length_eq, flatShifted_length _ _ _ _ hlen],
    by rw [h2.length_eq, flatShifted_length _ _ _ _ hlen],
    by rw [h3.length_eq, flatShifted_length _ _ _ _ hlen],
    by rw [h4.length_eq, flatShifted_length _ _ _ _ hlen],
    by rw [h5.length_eq, flatShifted_length _ _ _ _ hlen]⟩

/-- C2: both mergers are append-only on every non-empty input: each of
the five result collections is a permutation of the concatenated input
collections with each chart's elements shifted by one offset apiece
(exactly once each, nothing dropped or duplicated), the shifts change
nothing but the time field, and consequently every collection's size is
the sum of the input sizes. -/
theorem C2_append_only (first : Beatmap) (rest : List Beatmap) (gap_ms : Option ℚ)
    (transitions : Option (List ℚ)) (r r2 : Beatmap)
    (h : concat_beatmaps (first :: rest) gap_ms = .ok r)
    (h2 : concat_beatmaps_with_transitions (first :: rest) transitions = .ok r2) :
    (∃ offs : List ℚ, offs.length = (first :: rest).length
      ∧ PermAll r (first :: rest) offs) ∧
    (∃ offs : List ℚ, offs.length = (first :: rest).length
      ∧ PermAll r2 (first :: rest) offs) ∧
    CountsAll r (first :: rest) ∧ CountsAll r2 (first :: rest) ∧
    (∀ (offset : ℚ) (hit_object : HitObject),
      (shiftHit offset hit_object).kind = hit_object.kind) ∧
    (∀ (offset : ℚ) (point : ControlPoint),
      (shiftPoint offset point).payload = point.payload) := by
  have hu := concat_uniform_PermAll first rest gap_ms r h
  have ht := concat_trans_PermAll first rest transitions r2 h2
  have hlu := uniform_offs_length (gap_ms.getD 0)
    (get_beatmap_duration first + gap_ms.getD 0) first rest
  have hlt := trans_offs_length (get_beatmap_duration first) first rest _
    (concat_trans_len first rest transitions r2 h2)
  exact ⟨⟨_, hlu, hu⟩, ⟨_, hlt, ht⟩, countsAll_of_permAll hlu hu,
    countsAll_of_permAll hlt ht, fun _ _ => rfl, fun _ _ => rfl⟩

/-- C3 (counterexample): the claim fails for single-chart merges — the
single-chart early return skips the sort, so merging the one unsorted
chart `unsortedChart` returns it as-is, with its hit elements not sorted
by non-decreasing time. -/
theorem C3_counterexample :
    concat_beatmaps [unsortedChart] none = .ok unsortedChart ∧
    ¬ SortedAll unsortedChart :=
  ⟨rfl, fun hs => absurd hs.1 (by decide)⟩

/-- C3 (amended): for every merge of at least two charts, each of the
five timed collections of the result is sorted by non-decreasing time;
a single-chart merge returns the input chart unchanged, so its
collections are sorted only if the input's already were. -/
theorem C3_sorted_multi (first b2 : Beatmap) (rest : List Beatmap) (gap_ms : Option ℚ)
    (transitions : Option (List ℚ)) (r r2 : Beatmap)
    (h : concat_beatmaps (first :: b2 :: rest) gap_ms = .ok r)
    (h2 : concat_beatmaps_with_transitions (first :: b2 :: rest) transitions = .ok r2) :
    SortedAll r ∧ SortedAll r2 := by
  constructor
  · exact ⟨
      sorted_of_eq_mergeSort hitLE_trans hitLE_total
        (fun a b hab => by simpa [hitLE] using hab)
        (concat_uniform_coll hitsOf shiftHit hitLE (fun _ _ _ => rfl) (fun _ => rfl)
          (fun _ _ => rfl) shiftHit_zero first b2 rest gap_ms r h),
      sorted_of_eq_mergeSort pointLE_trans pointLE_total
        (fun a b hab => by simpa [pointLE] using hab)
        (concat_uniform_coll timingOf shiftPoint pointLE (fun _ _ _ => rfl) (fun _ => rfl)
          (fun _ _ => rfl) shiftPoint_zero first b2 rest gap_ms r h),
      sorted_of_eq_mergeSort pointLE_trans pointLE_total
        (fun a b hab => by simpa [pointLE] using hab)
        (concat_uniform_coll effectOf shiftPoint pointLE (fun _ _ _ => rfl) (fun _ => rfl)
          (fun _ _ => rfl) shiftPoint_zero first b2 rest gap_ms r h),
      sorted_of_eq_mergeSort pointLE_trans pointLE_total
        (fun a b hab => by simpa [pointLE] using hab)
        (concat_uniform_coll diffOf shiftPoint pointLE (fun _ _ _ => rfl) (fun _ => rfl)
          (fun _ _ => rfl) shiftPoint_zero first b2 rest gap_ms r h),
      sorted_of_eq_mergeSort pointLE_trans pointLE_total
        (fun a b hab => by simpa [pointLE] using hab)
        (concat_uniform_coll sampleOf shiftPoint pointLE (fun _ _ _ => rfl) (fun _ => rfl)
          (fun _ _ => rfl) shiftPoint_zero first b2 rest gap_ms r h)⟩
  · exact ⟨
      sorted_of_eq_mergeSort hitLE_trans hitLE_total
        (fun a b hab => by simpa [hitLE] using hab)
        (concat_trans_coll hitsOf shiftHit hitLE (fun _ _ _ => rfl) (fun _ => rfl)
          (fun _ _ => rfl) shiftHit_zero first b2 rest transitions r2 h2),
      sorted_of_eq_mergeSort pointLE_trans pointLE_total
        (fun a b hab => by simpa [pointLE] using hab)
        (concat_trans_coll timingOf shiftPoint pointLE (fun _ _ _ => rfl) (fun _ => rfl)
          (fun _ _ => rfl) shiftPoint_zero first b2 rest transitions r2 h2),
      sorted_of_eq_mergeSort pointLE_trans pointLE_total
        (fun a b hab => by simpa [pointLE] using hab)
        (concat_trans_coll effectOf shiftPoint pointLE (fun _ _ _ => rfl) (fun _ => rfl)
          (fun _ _ => rfl) shiftPoint_zero first b2 rest transitions r2 h2),
      sorted_of_eq_mergeSort pointLE_trans pointLE_total
        (fun a b hab => by simpa [pointLE] using hab)
        (concat_trans_coll diffOf shiftPoint pointLE (fun _ _ _ => rfl) (fun _ => rfl)
          (fun _ _ => rfl) shiftPoint_zero first b2 rest transitions r2 h2),
      sorted_of_eq_mergeSort pointLE_trans pointLE_total
        (fun a b hab => by simpa [pointLE] using hab)
        (concat_trans_coll sampleOf shiftPoint pointLE (fun _ _ _ => rfl) (fun _ => rfl)
          (fun _ _ => rfl) shiftPoint_zero first b2 rest transitions r2 h2)⟩

lemma stablePair_single {α : Type} (proj : Beatmap → List α) (shiftFn : ℚ → α → α)
    (timeOf : α → ℚ) (first : Beatmap) (hzero : ∀ a, shiftFn 0 a = a) :
    StablePair proj shiftFn timeOf first [first] [0] := by
  intro a b hsub _
  rwa [flatShifted_cons_zero proj shiftFn hzero, flatShifted_nil,
    List.append_nil] at hsub

/-- C10: in every merge, within each timed collection, two elements with
equal (shifted) times keep the order they have in the flattened
concatenation — an element of an earlier input chart precedes one of a
later chart, and two elements of the same chart keep their original
relative order (the appends preserve input order and the final sort is
stable). -/
theorem C10_stable_merge (first : Beatmap) (rest : List Beatmap) (gap_ms : Option ℚ)
    (transitions : Option (List ℚ)) (r r2 : Beatmap)
    (h : concat_beatmaps (first :: rest) gap_ms = .ok r)
    (h2 : concat_beatmaps_with_transitions (first :: rest) transitions = .ok r2) :
    StableAll r (first :: rest)
      (0 :: uniformOffsets (gap_ms.getD 0)
        (get_beatmap_duration first + gap_ms.getD 0) rest) ∧
    StableAll r2 (first :: rest)
      (0 :: transOffsets (get_beatmap_duration first)
        (rest.zip (transitions.getD (List.replicate rest.length 0)))) := by
  cases rest with
  | nil =>
    have hr : r = first := by
      rw [concat_uniform_eq] at h
      simpa using h.symm
    have hr2 : r2 = first := by
      rw [concat_trans_eq] at h2
      rcases Decidable.em
          ((transitions.getD (List.replicate (List.length ([] : List Beatmap)) 0)).length
            = ([] : List Beatmap).length) with hlen | hlen
      · rw [if_neg (by simpa using hlen)] at h2
        simpa using h2.symm
      · rw [if_pos (by simpa using hlen)] at h2
        exact absurd h2 (by simp)
    subst hr; subst hr2
    constructor
    · exact ⟨stablePair_single _ _ _ _ shiftHit_zero,
        stablePair_single _ _ _ _ shiftPoint_zero,
        stablePair_single _ _ _ _ shiftPoint_zero,
        stablePair_single _ _ _ _ shiftPoint_zero,
        stablePair_single _ _ _ _ shiftPoint_zero⟩
    · simp only [List.zip_nil_left]
      exact ⟨stablePair_single _ _ _ _ shiftHit_zero,
        stablePair_single _ _ _ _ shiftPoint_zero,
        stablePair_single _ _ _ _ shiftPoint_zero,
        stablePair_single _ _ _ _ shiftPoint_zero,
        stablePair_single _ _ _ _ shiftPoint_zero⟩
  | cons b2 rest =>
    constructor
    · exact ⟨
        fun a b hsub heq => pair_sublist_of_eq_mergeSort hitLE_trans hitLE_total
          (concat_uniform_coll hitsOf shiftHit hitLE (fun _ _ _ => rfl) (fun _ => rfl)
            (fun _ _ => rfl) shiftHit_zero first b2 rest gap_ms r h)
          (hitLE_of_time_eq heq) hsub,
        fun a b hsub heq => pair_sublist_of_eq_mergeSort pointLE_trans pointLE_total
          (concat_uniform_coll timingOf shiftPoint pointLE (fun _ _ _ => rfl) (fun _ => rfl)
            (fun _ _ => rfl) shiftPoint_zero first b2 rest gap_ms r h)
          (pointLE_of_time_eq heq) hsub,
        fun a b hsub heq => pair_sublist_of_eq_mergeSort pointLE_trans pointLE_total
          (concat_uniform_coll effectOf shiftPoint pointLE (fun _ _ _ => rfl) (fun _ => rfl)
            (fun _ _ => rfl) shiftPoint_zero first b2 rest gap_ms r h)
          (pointLE_of_time_eq heq) hsub,
        fun a b hsub heq => pair_sublist_of_eq_mergeSort pointLE_trans pointLE_total
          (concat_uniform_coll diffOf shiftPoint pointLE (fun _ _ _ => rfl) (fun _ => rfl)
            (fun _ _ => rfl) shiftPoint_zero first b2 rest gap_ms r h)
          (pointLE_of_time_eq heq) hsub,
        fun a b hsub heq => pair_sublist_of_eq_mergeSort pointLE_trans pointLE_total
          (concat_uniform_coll sampleOf shiftPoint pointLE (fun _ _ _ => rfl) (fun _ => rfl)
            (fun _ _ => rfl) shiftPoint_zero first b2 rest gap_ms r h)
          (pointLE_of_time_eq heq) hsub⟩
    · exact ⟨
        fun a b hsub heq => pair_sublist_of_eq_mergeSort hitLE_trans hitLE_total
          (concat_trans_coll hitsOf shiftHit hitLE (fun _ _ _ => rfl) (fun _ => rfl)
            (fun _ _ => rfl) shiftHit_zero first b2 rest transitions r2 h2)
          (hitLE_of_time_eq heq) hsub,
        fun a b hsub heq => pair_sublist_of_eq_mergeSort pointLE_trans pointLE_total
          (concat_trans_coll timingOf shiftPoint pointLE (fun _ _ _ => rfl) (fun _ => rfl)
            (fun _ _ => rfl) shiftPoint_zero first b2 rest transitions r2 h2)
          (pointLE_of_time_eq heq) hsub,
        fun a b hsub heq => pair_sublist_of_eq_mergeSort pointLE_trans pointLE_total
          (concat_trans_coll effectOf shiftPoint pointLE (fun _ _ _ => rfl) (fun _ => rfl)
            (fun _ _ => rfl) shiftPoint_zero first b2 rest transitions r2 h2)
          (pointLE_of_time_eq heq) hsub,
        fun a b hsub heq => pair_sublist_of_eq_mergeSort pointLE_trans pointLE_total
          (concat_trans_coll diffOf shiftPoint pointLE (fun _ _ _ => rfl) (fun _ => rfl)
            (fun _ _ => rfl) shiftPoint_zero first b2 rest transitions r2 h2)
          (pointLE_of_time_eq heq) hsub,
        fun a b hsub heq => pair_sublist_of_eq_mergeSort pointLE_trans pointLE_total
          (concat_trans_coll sampleOf shiftPoint pointLE (fun _ _ _ => rfl) (fun _ => rfl)
            (fun _ _ => rfl) shiftPoint_zero first b2 rest transitions r2 h2)
          (pointLE_of_time_eq heq) hsub⟩

/-! ### Concrete merges used by the witnesses -/

/-- A chart of duration 1000 (one instantaneous hit at 1000) with a
timing point at 0. -/
def cA : Beatmap := ⟨"A", [⟨1000, .other 0⟩], ⟨[⟨0, 1⟩], [], [], []⟩, 7⟩

/-- A chart with one instantaneous hit at 0 and a timing point at 0. -/
def cB : Beatmap := ⟨"B", [⟨0, .other 1⟩], ⟨[⟨0, 2⟩], [], [], []⟩, 8⟩

/-- Merging `[cA, cB]` with gap 500 (equivalently, transitions `[500]`):
every element of `cB` is shifted by `1000 + 500 = 1500`. -/
def resAB : Beatmap :=
  ⟨"A Marathon (2 maps)", [⟨1000, .other 0⟩, ⟨1500, .other 1⟩],
    ⟨[⟨0, 1⟩, ⟨1500, 2⟩], [], [], []⟩, 7⟩

lemma concat_cA_cB : concat_beatmaps [cA, cB] (some 500) = .ok resAB := by
  norm_num [concat_beatmaps, cA, cB, resAB, concatStep, appendShifted, shiftHit,
    shiftPoint, sortBeatmap, relabel, get_beatmap_duration, effectiveEndTime,
    hitLE, pointLE, List.mergeSort]
  rfl

lemma concat_trans_cA_cB :
    concat_beatmaps_with_transitions [cA, cB] (some [500]) = .ok resAB := by
  norm_num [concat_beatmaps_with_transitions, cA, cB, resAB, transStep, appendShifted,
    shiftHit, shiftPoint, sortBeatmap, relabel, get_beatmap_duration, effectiveEndTime,
    hitLE, pointLE, List.mergeSort]
  rfl

/-- C1 witness: the offset-sum statement at `[cA, cB]`, gap 500, where
`cumulativeShifts 500 [cA, cB] = [0, 1500]`. -/
theorem C1_witness : PermAll resAB [cA, cB] (cumulativeShifts 500 [cA, cB]) :=
  C1_shift_by_cumulative_sums cA [cB] 500 resAB concat_cA_cB

/-- C2 witness: the count-preservation part at `[cA, cB]`. -/
theorem C2_witness : CountsAll resAB [cA, cB] :=
  (C2_append_only cA [cB] (some 500) (some [500]) resAB resAB
    concat_cA_cB concat_trans_cA_cB).2.2.1

/-- C3 witness: the two-chart merge of `[cA, cB]` is sorted. -/
theorem C3_witness : SortedAll resAB :=
  (C3_sorted_multi cA cB [] (some 500) (some [500]) resAB resAB
    concat_cA_cB concat_trans_cA_cB).1

/-- C10 witness: stability at the concrete merge of `[cA, cB]`. -/
theorem C10_witness :
    StableAll resAB [cA, cB]
      (0 :: uniformOffsets 500 (get_beatmap_duration cA + 500) [cB]) :=
  (C10_stable_merge cA [cB] (some 500) (some [500]) resAB resAB
    concat_cA_cB concat_trans_cA_cB).1

end ManiaTool
